import Mathlib

/-!
Verification of the SoulSnap room-coordination server
(`server/src/index.ts`).

The server keeps a `Map<string, Room>` called `rooms`, where
`Room = { id : string; users : Set<string> }`, and reacts to the
socket events `join-room`, `signal`, `layer-update`, `capture-trigger`
and `disconnect`.  Delivery of emitted messages goes through
socket.io's room adapter: every connected socket belongs to a personal
adapter room named by its own id, `socket.join(roomId)` adds it to the
adapter room `roomId`, and disconnection removes it from every adapter
room.  `io.to(x)` targets all sockets in adapter room `x`;
`socket.to(x)` targets all sockets in adapter room `x` except the
sender.

We model the server state as three finite association structures
(connected sockets, the `rooms` map, the adapter), an event as one
incoming socket message, and `step` as the handler dispatch: it
returns the next state together with the list of messages emitted
while handling the event, in emission order.
-/

namespace SoulSnap

/-- One entry of an association list from a room name to its list of
member socket ids.  Used both for the server's `rooms` map (value =
`Room.users`, a `Set<string>`, so duplicate-free by construction) and
for the socket.io adapter. -/
abbrev RoomEntry := String × List String

/-- Look up the (first) entry with the given key, mirroring
`Map.get`. -/
def findRoom : List RoomEntry → String → Option (List String)
  | [], _ => none
  | e :: rest, r => if e.1 = r then some e.2 else findRoom rest r

/-- `Set.add`: append the element if it is not already present. -/
def addUser (users : List String) (x : String) : List String :=
  if x ∈ users then users else users ++ [x]

/-- Add socket `x` to room `r` of an association list, creating the
room if absent: this is `rooms.set(roomId, {id, users: new Set()})`
followed by `users.add(socket.id)` on the map side, and
`socket.join(roomId)` on the adapter side. -/
def addTo (m : List RoomEntry) (r x : String) : List RoomEntry :=
  if (findRoom m r).isSome then
    m.map (fun e => if e.1 = r then (e.1, addUser e.2 x) else e)
  else m ++ [(r, [x])]

/-- The `disconnect` handler's effect on the `rooms` map: for every
room containing the socket, delete the socket from its user set and,
if the set became empty, delete the room itself. -/
def disconnectMap (m : List RoomEntry) (s : String) : List RoomEntry :=
  m.filterMap (fun e =>
    if s ∈ e.2 then
      if (e.2.filter (fun x => x ≠ s)).isEmpty then none
      else some (e.1, e.2.filter (fun x => x ≠ s))
    else some e)

/-- Remove a socket from every adapter room (socket.io does this
automatically on disconnection). -/
def sioRemove (m : List RoomEntry) (s : String) : List RoomEntry :=
  m.map (fun e => (e.1, e.2.filter (fun x => x ≠ s)))

/-- The state of the server process: the connected socket ids, the
`rooms` map, and the socket.io adapter (room name to members). -/
structure ServerState where
  connected : List String
  rooms : List RoomEntry
  sio : List RoomEntry
deriving DecidableEq, Repr

/-- Members of `roomId` according to the `rooms` map (`room.users`);
an absent room reads as the empty set. -/
def memOf (st : ServerState) (r : String) : List String :=
  (findRoom st.rooms r).getD []

/-- Sockets in adapter room `r`: the delivery targets of
`io.to(r)`. -/
def sioOf (st : ServerState) (r : String) : List String :=
  (findRoom st.sio r).getD []

/-- A message payload emitted by the server.  Handshake signals and
layer descriptors are opaque to the server (it relays them verbatim),
so we represent them by `String`. -/
inductive Payload where
  | roomJoined (roomId userId : String)
  | userJoined (userId : String)
  | userLeft (userId : String)
  | signal (src : String) (data : String)
  | layerUpdate (layers : List String)
  | captureNow (timestamp : Nat)
deriving DecidableEq, Repr

/-- One emitted message: destination socket and payload. -/
structure Msg where
  dst : String
  payload : Payload
deriving DecidableEq, Repr

/-- Emit one payload to each destination in the list. -/
def emitTo (dsts : List String) (p : Payload) : List Msg :=
  dsts.map (fun d => ⟨d, p⟩)

/-- One incoming event at the server.  `connect` is the opening of a
socket; the others are the client messages the source subscribes to,
plus `backgroundUpdate`, which the client emits (`Editor.tsx`) but for
which the server registers no handler.  `captureTrigger` carries the
value `Date.now()` evaluates to when the handler runs. -/
inductive Event where
  | connect (s : String)
  | joinRoom (s roomId : String)
  | signal (s dst data : String)
  | layerUpdate (s roomId : String) (layers : List String)
  | backgroundUpdate (s roomId bg : String)
  | captureTrigger (s roomId : String) (now : Nat)
  | disconnect (s : String)
deriving DecidableEq, Repr

/-- The handler dispatch of `io.on('connection', ...)`: next state and
the emitted messages, in order.  An event with no registered handler
(`backgroundUpdate`) is ignored by socket.io. -/
def step (st : ServerState) : Event → ServerState × List Msg
  | .connect s =>
      (⟨s :: st.connected, st.rooms, addTo st.sio s s⟩, [])
  | .joinRoom s r =>
      let rooms := addTo st.rooms r s
      let sio := addTo st.sio r s
      let others := ((findRoom sio r).getD []).filter (fun x => x ≠ s)
      (⟨st.connected, rooms, sio⟩,
        ⟨s, .roomJoined r s⟩ :: emitTo others (.userJoined s))
  | .signal s dst data =>
      (st, emitTo (sioOf st dst) (.signal s data))
  | .layerUpdate s r layers =>
      (st, emitTo ((sioOf st r).filter (fun x => x ≠ s)) (.layerUpdate layers))
  | .backgroundUpdate _ _ _ => (st, [])
  | .captureTrigger _ r now =>
      (st, emitTo (sioOf st r) (.captureNow now))
  | .disconnect s =>
      let sio := sioRemove st.sio s
      let msgs := (st.rooms.filter (fun e => s ∈ e.2)).map (fun e =>
        emitTo (((findRoom sio e.1).getD []).filter (fun x => x ≠ s)) (.userLeft s))
      (⟨st.connected.filter (fun x => x ≠ s), disconnectMap st.rooms s, sio⟩,
        msgs.flatten)

/-- The empty server state at process start. -/
def init : ServerState := ⟨[], [], []⟩

/-- Run a sequence of events. -/
def run (st : ServerState) (tr : List Event) : ServerState :=
  tr.foldl (fun s e => (step s e).1) st

/-- All messages emitted while running a sequence of events, in
order. -/
def traceMsgs (st : ServerState) : List Event → List Msg
  | [] => []
  | e :: tr => (step st e).2 ++ traceMsgs (step st e).1 tr

/-- Transport-level well-formedness of an event in a state: events
originate from a connected socket, and a fresh connection's id is not
already connected (socket.io ids are unique among live sockets). -/
def wfEvent (st : ServerState) : Event → Bool
  | .connect s => ¬ s ∈ st.connected
  | .joinRoom s _ => s ∈ st.connected
  | .signal s _ _ => s ∈ st.connected
  | .layerUpdate s _ _ => s ∈ st.connected
  | .backgroundUpdate s _ _ => s ∈ st.connected
  | .captureTrigger s _ _ => s ∈ st.connected
  | .disconnect s => s ∈ st.connected

/-- Well-formedness of a whole event sequence from a state. -/
def wfTrace (st : ServerState) : List Event → Bool
  | [] => true
  | e :: tr => wfEvent st e && wfTrace (step st e).1 tr

/-- States the server can actually be in: reached from `init` by
well-formed events. -/
inductive Reachable : ServerState → Prop where
  | init : Reachable init
  | step {st : ServerState} {e : Event} :
      Reachable st → wfEvent st e = true → Reachable (step st e).1

theorem run_cons (st : ServerState) (e : Event) (tr : List Event) :
    run st (e :: tr) = run (step st e).1 tr := rfl

theorem reachable_run {st : ServerState} (tr : List Event)
    (hst : Reachable st) (hwf : wfTrace st tr = true) :
    Reachable (run st tr) := by
  induction tr generalizing st with
  | nil => exact hst
  | cons e tr ih =>
      rw [wfTrace, Bool.and_eq_true] at hwf
      exact ih (Reachable.step hst hwf.1) hwf.2


/-! ### Basic lemmas about the list operations -/

theorem mem_addUser {l : List String} {x y : String} :
    y ∈ addUser l x ↔ y ∈ l ∨ y = x := by
  unfold addUser
  by_cases hx : x ∈ l
  · simp only [if_pos hx]
    constructor
    · exact Or.inl
    · rintro (h | rfl)
      · exact h
      · exact hx
  · simp [if_neg hx]

theorem addUser_ne_nil {l : List String} {x : String} : addUser l x ≠ [] := by
  unfold addUser
  by_cases hx : x ∈ l
  · simp only [if_pos hx]
    intro h
    rw [h] at hx
    exact absurd hx (List.not_mem_nil x)
  · simp [if_neg hx]

theorem addUser_nodup {l : List String} {x : String} (h : l.Nodup) :
    (addUser l x).Nodup := by
  unfold addUser
  by_cases hx : x ∈ l
  · simpa [if_pos hx]
  · simp only [if_neg hx]
    simpa [List.nodup_append] using ⟨h, hx⟩

theorem addUser_of_mem {l : List String} {x : String} (h : x ∈ l) :
    addUser l x = l := by
  simp [addUser, if_pos h]

theorem mem_emitTo {msg : Msg} {l : List String} {p : Payload} :
    msg ∈ emitTo l p ↔ msg.dst ∈ l ∧ msg.payload = p := by
  simp only [emitTo, List.mem_map]
  constructor
  · rintro ⟨d, hd, rfl⟩
    exact ⟨hd, rfl⟩
  · rintro ⟨hd, hp⟩
    exact ⟨msg.dst, hd, by cases msg; cases hp; rfl⟩

theorem filter_emitTo (l : List String) (p : Payload) (d : String) :
    (emitTo l p).filter (fun m => m.dst = d) =
      emitTo (l.filter (fun x => x = d)) p := by
  simp [emitTo, List.filter_map, Function.comp_def]

theorem filter_eq_singleton_of_nodup {l : List String} {a : String}
    (hn : l.Nodup) (ha : a ∈ l) :
    l.filter (fun x => x = a) = [a] := by
  induction l with
  | nil => cases ha
  | cons b l ih =>
      rcases List.nodup_cons.mp hn with ⟨hb, hl⟩
      by_cases hba : b = a
      · subst hba
        have hnil : l.filter (fun x => x = b) = [] :=
          List.filter_eq_nil_iff.mpr (fun x hx => by
            simp only [decide_eq_true_eq]
            rintro rfl
            exact hb hx)
        simp [List.filter_cons, hnil]
      · have ha' : a ∈ l := by
          rcases List.mem_cons.mp ha with h | h
          · exact absurd h.symm hba
          · exact h
        simp [List.filter_cons, hba, ih hl ha']

/-! ### Lemmas about `findRoom` -/

theorem findRoom_eq_none_of_not_mem_keys {m : List RoomEntry} {r : String}
    (h : r ∉ m.map Prod.fst) : findRoom m r = none := by
  induction m with
  | nil => rfl
  | cons e m ih =>
      simp only [List.map_cons, List.mem_cons] at h
      push_neg at h
      simp only [findRoom, if_neg (fun he : e.1 = r => h.1 he.symm)]
      exact ih h.2

theorem findRoom_isSome_of_mem_keys {m : List RoomEntry} {r : String}
    (h : r ∈ m.map Prod.fst) : (findRoom m r).isSome := by
  induction m with
  | nil => cases h
  | cons e m ih =>
      simp only [List.map_cons, List.mem_cons] at h
      by_cases he : e.1 = r
      · simp [findRoom, he]
      · simp only [findRoom, if_neg he]
        exact ih (h.resolve_left (fun hr => he hr.symm))

theorem findRoom_mem {m : List RoomEntry} {r : String} {us : List String}
    (h : findRoom m r = some us) : (r, us) ∈ m := by
  induction m with
  | nil => cases h
  | cons e m ih =>
      obtain ⟨k, vs⟩ := e
      by_cases he : k = r
      · subst he
        simp only [findRoom, if_pos rfl] at h
        cases h
        exact List.mem_cons_self _ _
      · simp only [findRoom, if_neg he] at h
        exact List.mem_cons_of_mem _ (ih h)

theorem findRoom_append_of_none {m m' : List RoomEntry} {r : String}
    (h : findRoom m r = none) : findRoom (m ++ m') r = findRoom m' r := by
  induction m with
  | nil => rfl
  | cons e m ih =>
      by_cases he : e.1 = r
      · simp [findRoom, if_pos he] at h
      · simp only [List.cons_append, findRoom, if_neg he] at h ⊢
        exact ih h

theorem findRoom_append_of_some {m m' : List RoomEntry} {r : String}
    {us : List String} (h : findRoom m r = some us) :
    findRoom (m ++ m') r = some us := by
  induction m with
  | nil => cases h
  | cons e m ih =>
      by_cases he : e.1 = r
      · simp only [findRoom, if_pos he] at h ⊢
        exact h
      · simp only [List.cons_append, findRoom, if_neg he] at h ⊢
        exact ih h

theorem findRoom_map_update_self (m : List RoomEntry) (r x : String) :
    findRoom (m.map (fun e => if e.1 = r then (e.1, addUser e.2 x) else e)) r =
      (findRoom m r).map (fun us => addUser us x) := by
  induction m with
  | nil => rfl
  | cons e m ih =>
      by_cases he : e.1 = r
      · simp [List.map_cons, findRoom, if_pos he, he]
      · simp only [List.map_cons, if_neg he, findRoom]
        exact ih

theorem findRoom_map_update_other {m : List RoomEntry} {r' x r : String}
    (h : r ≠ r') :
    findRoom (m.map (fun e => if e.1 = r' then (e.1, addUser e.2 x) else e)) r =
      findRoom m r := by
  induction m with
  | nil => rfl
  | cons e m ih =>
      by_cases her : e.1 = r
      · have hne : ¬ e.1 = r' := fun hc => h (her.symm.trans hc)
        simp [List.map_cons, findRoom, hne, her, h]
      · have hfst : (if e.1 = r' then (e.1, addUser e.2 x) else e).1 = e.1 := by
          split <;> rfl
        simp only [List.map_cons, findRoom, hfst]
        rw [if_neg her, if_neg her]
        exact ih

theorem findRoom_addTo_self (m : List RoomEntry) (r x : String) :
    findRoom (addTo m r x) r = some (addUser ((findRoom m r).getD []) x) := by
  unfold addTo
  cases hf : findRoom m r with
  | none =>
      simp only [hf, Option.isSome_none, Bool.false_eq_true, if_false]
      rw [findRoom_append_of_none hf]
      simp [findRoom, addUser]
  | some us =>
      simp only [hf, Option.isSome_some, if_true, Option.getD_some]
      rw [findRoom_map_update_self, hf]
      rfl

theorem findRoom_addTo_other {m : List RoomEntry} {r r' x : String}
    (h : r ≠ r') : findRoom (addTo m r' x) r = findRoom m r := by
  unfold addTo
  split
  · exact findRoom_map_update_other h
  · cases hf : findRoom m r with
    | none =>
        rw [findRoom_append_of_none hf]
        have hne : ¬ r' = r := fun hc => h hc.symm
        simp [findRoom, hne]
    | some us =>
        exact findRoom_append_of_some hf


/-! ### Lemmas about `disconnectMap` and `sioRemove` -/

theorem findRoom_sioRemove (m : List RoomEntry) (s r : String) :
    findRoom (sioRemove m s) r =
      (findRoom m r).map (fun us => us.filter (fun x => x ≠ s)) := by
  induction m with
  | nil => rfl
  | cons e m ih =>
      by_cases he : e.1 = r
      · simp [sioRemove, findRoom, he]
      · simp only [sioRemove, List.map_cons, findRoom, if_neg he] at ih ⊢
        exact ih

theorem keys_sioRemove (m : List RoomEntry) (s : String) :
    (sioRemove m s).map Prod.fst = m.map Prod.fst := by
  simp [sioRemove, List.map_map, Function.comp_def]

theorem mem_sioRemove {m : List RoomEntry} {s : String} {e : RoomEntry}
    (h : e ∈ sioRemove m s) :
    ∃ e0 ∈ m, e = (e0.1, e0.2.filter (fun x => x ≠ s)) := by
  rcases List.mem_map.mp h with ⟨e0, he0, rfl⟩
  exact ⟨e0, he0, rfl⟩

theorem keys_addTo_nodup {m : List RoomEntry} {r x : String}
    (h : (m.map Prod.fst).Nodup) : ((addTo m r x).map Prod.fst).Nodup := by
  unfold addTo
  split
  · have heq :
        (m.map (fun e => if e.1 = r then (e.1, addUser e.2 x) else e)).map Prod.fst
          = m.map Prod.fst := by
      rw [List.map_map]
      refine List.map_congr_left (fun e _ => ?_)
      by_cases he : e.1 = r <;> simp [he, Function.comp_def]
    rw [heq]
    exact h
  · rename_i hns
    have hr : r ∉ m.map Prod.fst := fun hmem => hns (findRoom_isSome_of_mem_keys hmem)
    rw [List.map_append]
    refine List.Nodup.append h (List.nodup_singleton r) ?_
    simpa [List.disjoint_singleton] using hr

theorem mem_addTo {m : List RoomEntry} {r x : String} {e : RoomEntry}
    (h : e ∈ addTo m r x) :
    e = (r, [x]) ∨ ∃ e0 ∈ m, (e = e0 ∨ e = (e0.1, addUser e0.2 x)) := by
  unfold addTo at h
  split at h
  · rcases List.mem_map.mp h with ⟨e0, he0, rfl⟩
    right
    refine ⟨e0, he0, ?_⟩
    by_cases he : e0.1 = r
    · right
      simp [if_pos he]
    · left
      simp [if_neg he]
  · rcases List.mem_append.mp h with h | h
    · right
      exact ⟨e, h, Or.inl rfl⟩
    · left
      simpa using h

theorem findRoom_cons (e : RoomEntry) (m : List RoomEntry) (r : String) :
    findRoom (e :: m) r = if e.1 = r then some e.2 else findRoom m r := rfl

theorem filter_ne_of_not_mem {l : List String} {s : String} (hs : s ∉ l) :
    l.filter (fun x => x ≠ s) = l :=
  List.filter_eq_self.mpr (fun a ha => by
    simp only [decide_eq_true_eq]
    rintro rfl
    exact hs ha)

theorem disconnectMap_cons (e : RoomEntry) (m : List RoomEntry) (s : String) :
    disconnectMap (e :: m) s =
      if s ∈ e.2 then
        if (e.2.filter (fun x => x ≠ s)).isEmpty then disconnectMap m s
        else (e.1, e.2.filter (fun x => x ≠ s)) :: disconnectMap m s
      else e :: disconnectMap m s := by
  show List.filterMap _ (e :: m) = _
  rw [List.filterMap_cons]
  by_cases hs : s ∈ e.2
  · rw [if_pos hs, if_pos hs]
    by_cases hemp : (e.2.filter (fun x => x ≠ s)).isEmpty
    · rw [if_pos hemp, if_pos hemp]
      rfl
    · rw [if_neg hemp, if_neg hemp]
      rfl
  · rw [if_neg hs, if_neg hs]
    rfl

theorem keys_disconnectMap_sublist (m : List RoomEntry) (s : String) :
    ((disconnectMap m s).map Prod.fst).Sublist (m.map Prod.fst) := by
  induction m with
  | nil => exact List.Sublist.refl _
  | cons e m ih =>
      rw [disconnectMap_cons, List.map_cons]
      by_cases hs : s ∈ e.2
      · rw [if_pos hs]
        by_cases hemp : (e.2.filter (fun x => x ≠ s)).isEmpty
        · rw [if_pos hemp]
          exact ih.cons _
        · rw [if_neg hemp, List.map_cons]
          exact ih.cons₂ _
      · rw [if_neg hs, List.map_cons]
        exact ih.cons₂ _

theorem mem_disconnectMap {m : List RoomEntry} {s : String} {e : RoomEntry}
    (h : e ∈ disconnectMap m s) :
    ∃ e0 ∈ m, e.1 = e0.1 ∧
      ((e.2 = e0.2.filter (fun x => x ≠ s) ∧ e.2 ≠ []) ∨
        (s ∉ e0.2 ∧ e.2 = e0.2)) := by
  rcases List.mem_filterMap.mp h with ⟨e0, he0, hf⟩
  by_cases hs : s ∈ e0.2
  · by_cases hemp : (e0.2.filter (fun x => x ≠ s)).isEmpty
    · rw [if_pos hs, if_pos hemp] at hf
      exact Option.noConfusion hf
    · rw [if_pos hs, if_neg hemp] at hf
      have he : e = (e0.1, e0.2.filter (fun x => x ≠ s)) := (Option.some.inj hf).symm
      subst he
      refine ⟨e0, he0, rfl, Or.inl ⟨rfl, ?_⟩⟩
      intro hnil
      apply hemp
      show (e0.2.filter (fun x => x ≠ s)).isEmpty = true
      have h2 : e0.2.filter (fun x => x ≠ s) = [] := hnil
      rw [h2]
      rfl
  · rw [if_neg hs] at hf
    have he : e0 = e := Option.some.inj hf
    rw [← he]
    exact ⟨e0, he0, rfl, Or.inr ⟨hs, rfl⟩⟩

theorem getD_findRoom_disconnectMap {m : List RoomEntry} {s : String}
    (h : (m.map Prod.fst).Nodup) (r : String) :
    (findRoom (disconnectMap m s) r).getD [] =
      ((findRoom m r).getD []).filter (fun x => x ≠ s) := by
  induction m with
  | nil => rfl
  | cons e m ih =>
      rw [List.map_cons] at h
      rcases List.nodup_cons.mp h with ⟨hkey, hrest⟩
      have hrhs : findRoom (e :: m) r = if e.1 = r then some e.2 else findRoom m r := rfl
      rw [disconnectMap_cons, hrhs]
      by_cases her : e.1 = r
      · have hnotm : r ∉ m.map Prod.fst := by
          rw [← her]
          exact hkey
        have hnone : findRoom (disconnectMap m s) r = none :=
          findRoom_eq_none_of_not_mem_keys
            (fun hc => hnotm ((keys_disconnectMap_sublist m s).subset hc))
        rw [if_pos her, Option.getD_some]
        by_cases hs : s ∈ e.2
        · by_cases hemp : (e.2.filter (fun x => x ≠ s)).isEmpty
          · rw [if_pos hs, if_pos hemp, hnone]
            have h2 : e.2.filter (fun x => x ≠ s) = [] := by
              rcases hl : e.2.filter (fun x => x ≠ s) with _ | ⟨a, l⟩
              · rfl
              · rw [hl] at hemp
                exact absurd hemp (by simp [List.isEmpty])
            rw [h2]
            rfl
          · rw [if_pos hs, if_neg hemp]
            have hcs : findRoom ((e.1, e.2.filter (fun x => x ≠ s)) ::
                disconnectMap m s) r = some (e.2.filter (fun x => x ≠ s)) :=
              if_pos her
            rw [hcs, Option.getD_some]
        · rw [if_neg hs]
          have hcs : findRoom (e :: disconnectMap m s) r = some e.2 := if_pos her
          rw [hcs, Option.getD_some]
          exact (filter_ne_of_not_mem hs).symm
      · rw [if_neg her]
        by_cases hs : s ∈ e.2
        · by_cases hemp : (e.2.filter (fun x => x ≠ s)).isEmpty
          · rw [if_pos hs, if_pos hemp]
            exact ih hrest
          · rw [if_pos hs, if_neg hemp]
            have hcs : findRoom ((e.1, e.2.filter (fun x => x ≠ s)) ::
                disconnectMap m s) r = findRoom (disconnectMap m s) r :=
              if_neg her
            rw [hcs]
            exact ih hrest
        · rw [if_neg hs]
          have hcs : findRoom (e :: disconnectMap m s) r =
              findRoom (disconnectMap m s) r := if_neg her
          rw [hcs]
          exact ih hrest

/-! ### The spec-side description of room membership (for claim C2) -/

/-- Spec-side effect of one event on "the set of identities that have
joined the room and not yet left it" (leaving = disconnecting): a join
of this room adds the identity, a disconnect removes it, every other
event leaves the set unchanged.  This definition follows the spec's
words and is compared against the implementation's `memOf`. -/
def specStep (acc : List String) (e : Event) (r : String) : List String :=
  match e with
  | .joinRoom s r' => if r' = r then addUser acc s else acc
  | .disconnect s => acc.filter (fun x => x ≠ s)
  | _ => acc

/-- Spec-side member set of room `r` after an event sequence. -/
def specMembers (tr : List Event) (r : String) : List String :=
  tr.foldl (fun acc e => specStep acc e r) []

/-- Literal spec-side reading of "`x` has joined `r` and not yet left",
evaluated over the trace in most-recent-first order: the most recent
event is `x` joining `r`, or it is not a departure of `x` and the
property held before it. -/
def joinedNotLeft : List Event → String → String → Prop
  | [], _, _ => False
  | e :: rest, x, r =>
      e = .joinRoom x r ∨ (e ≠ .disconnect x ∧ joinedNotLeft rest x r)

theorem memOf_step {st : ServerState}
    (hk : (st.rooms.map Prod.fst).Nodup) (e : Event) (r : String) :
    memOf (step st e).1 r = specStep (memOf st r) e r := by
  cases e with
  | connect s => rfl
  | joinRoom s r0 =>
      show (findRoom (addTo st.rooms r0 s) r).getD [] = _
      by_cases hr : r0 = r
      · subst hr
        rw [findRoom_addTo_self, Option.getD_some]
        show _ = if r0 = r0 then addUser ((findRoom st.rooms r0).getD []) s else _
        rw [if_pos rfl]
      · rw [findRoom_addTo_other (fun hc => hr hc.symm)]
        show _ = if r0 = r then _ else (findRoom st.rooms r).getD []
        rw [if_neg hr]
  | signal s d p => rfl
  | layerUpdate s r0 ls => rfl
  | backgroundUpdate s r0 bg => rfl
  | captureTrigger s r0 now => rfl
  | disconnect s =>
      show (findRoom (disconnectMap st.rooms s) r).getD [] = _
      exact getD_findRoom_disconnectMap hk r

theorem rooms_keys_nodup_step {st : ServerState}
    (hk : (st.rooms.map Prod.fst).Nodup) (e : Event) :
    ((step st e).1.rooms.map Prod.fst).Nodup := by
  cases e with
  | connect s => exact hk
  | joinRoom s r0 => exact keys_addTo_nodup hk
  | signal s d p => exact hk
  | layerUpdate s r0 ls => exact hk
  | backgroundUpdate s r0 bg => exact hk
  | captureTrigger s r0 now => exact hk
  | disconnect s => exact List.Nodup.sublist (keys_disconnectMap_sublist _ _) hk

theorem rooms_keys_nodup_run {st : ServerState} (tr : List Event)
    (hk : (st.rooms.map Prod.fst).Nodup) :
    ((run st tr).rooms.map Prod.fst).Nodup := by
  induction tr generalizing st with
  | nil => exact hk
  | cons e tr ih => exact ih (rooms_keys_nodup_step hk e)

theorem memOf_run {st : ServerState} (tr : List Event)
    (hk : (st.rooms.map Prod.fst).Nodup) (r : String) :
    memOf (run st tr) r =
      tr.foldl (fun acc e => specStep acc e r) (memOf st r) := by
  induction tr generalizing st with
  | nil => rfl
  | cons e tr ih =>
      rw [run_cons, List.foldl_cons, ih (rooms_keys_nodup_step hk e),
        memOf_step hk]

theorem mem_specStep {acc : List String} {e : Event} {x r : String} :
    x ∈ specStep acc e r ↔
      e = Event.joinRoom x r ∨ (e ≠ Event.disconnect x ∧ x ∈ acc) := by
  cases e with
  | joinRoom s r' =>
      by_cases hr : r' = r
      · subst hr
        show x ∈ (if r' = r' then addUser acc s else acc) ↔ _
        rw [if_pos rfl, mem_addUser]
        constructor
        · rintro (h | rfl)
          · exact Or.inr ⟨by simp, h⟩
          · exact Or.inl rfl
        · rintro (h | ⟨-, h⟩)
          · injection h with h1 h2
            exact Or.inr h1.symm
          · exact Or.inl h
      · show x ∈ (if r' = r then addUser acc s else acc) ↔ _
        rw [if_neg hr]
        constructor
        · intro h
          exact Or.inr ⟨by simp, h⟩
        · rintro (h | ⟨-, h⟩)
          · injection h with h1 h2
            exact absurd h2 hr
          · exact h
  | disconnect s =>
      show x ∈ acc.filter (fun y => y ≠ s) ↔ _
      rw [List.mem_filter]
      simp only [decide_eq_true_eq]
      constructor
      · rintro ⟨hm, hne⟩
        refine Or.inr ⟨?_, hm⟩
        intro hc
        injection hc with h1
        exact hne h1.symm
      · rintro (h | ⟨hne, hm⟩)
        · exact absurd h (by simp)
        · exact ⟨hm, fun hc => hne (congrArg Event.disconnect hc.symm)⟩
  | connect s =>
      show x ∈ acc ↔ _
      constructor
      · intro h
        exact Or.inr ⟨by simp, h⟩
      · rintro (h | ⟨-, h⟩)
        · exact absurd h (by simp)
        · exact h
  | signal s d p =>
      show x ∈ acc ↔ _
      constructor
      · intro h
        exact Or.inr ⟨by simp, h⟩
      · rintro (h | ⟨-, h⟩)
        · exact absurd h (by simp)
        · exact h
  | layerUpdate s r0 ls =>
      show x ∈ acc ↔ _
      constructor
      · intro h
        exact Or.inr ⟨by simp, h⟩
      · rintro (h | ⟨-, h⟩)
        · exact absurd h (by simp)
        · exact h
  | backgroundUpdate s r0 bg =>
      show x ∈ acc ↔ _
      constructor
      · intro h
        exact Or.inr ⟨by simp, h⟩
      · rintro (h | ⟨-, h⟩)
        · exact absurd h (by simp)
        · exact h
  | captureTrigger s r0 now =>
      show x ∈ acc ↔ _
      constructor
      · intro h
        exact Or.inr ⟨by simp, h⟩
      · rintro (h | ⟨-, h⟩)
        · exact absurd h (by simp)
        · exact h

theorem specMembers_append (tr : List Event) (e : Event) (r : String) :
    specMembers (tr ++ [e]) r = specStep (specMembers tr r) e r := by
  unfold specMembers
  rw [List.foldl_append]
  rfl

theorem mem_specMembers_iff (tr : List Event) (x r : String) :
    x ∈ specMembers tr r ↔ joinedNotLeft tr.reverse x r := by
  induction tr using List.reverseRecOn with
  | nil => simp [specMembers, joinedNotLeft]
  | append_singleton tr e ih =>
      rw [specMembers_append, List.reverse_append]
      show _ ↔ joinedNotLeft (e :: tr.reverse) x r
      rw [mem_specStep]
      show _ ↔ (e = Event.joinRoom x r ∨
        (e ≠ Event.disconnect x ∧ joinedNotLeft tr.reverse x r))
      rw [ih]

/-! ### The reachable-state invariant -/

theorem getD_findRoom_addTo_self (m : List RoomEntry) (r x : String) :
    (findRoom (addTo m r x) r).getD [] = addUser ((findRoom m r).getD []) x := by
  rw [findRoom_addTo_self]
  rfl

theorem getD_findRoom_addTo_other {m : List RoomEntry} {r r' x : String}
    (h : r ≠ r') :
    (findRoom (addTo m r' x) r).getD [] = (findRoom m r).getD [] := by
  rw [findRoom_addTo_other h]

theorem getD_findRoom_sioRemove (m : List RoomEntry) (s r : String) :
    (findRoom (sioRemove m s) r).getD [] =
      ((findRoom m r).getD []).filter (fun x => x ≠ s) := by
  rw [findRoom_sioRemove]
  cases findRoom m r <;> rfl

theorem mem_filter_ne {l : List String} {x s : String} :
    x ∈ l.filter (fun y => y ≠ s) ↔ x ∈ l ∧ x ≠ s := by
  rw [List.mem_filter]
  simp only [decide_eq_true_eq]

/-- Invariant of every reachable server state: map keys are unique,
user sets are duplicate-free, nonempty and contain only connected
sockets, adapter rooms are duplicate-free, and an adapter room holds
exactly the room's members in the `rooms` map plus (for the personal
room) the connected socket of the same name. -/
structure Inv (st : ServerState) : Prop where
  rkeys : (st.rooms.map Prod.fst).Nodup
  rnodup : ∀ e ∈ st.rooms, e.2.Nodup
  rconn : ∀ e ∈ st.rooms, ∀ x ∈ e.2, x ∈ st.connected
  rne : ∀ e ∈ st.rooms, e.2 ≠ []
  snodup : ∀ e ∈ st.sio, e.2.Nodup
  schar : ∀ r x, x ∈ sioOf st r ↔
    (x ∈ memOf st r ∨ (x = r ∧ r ∈ st.connected))

theorem Inv.sioOf_nodup {st : ServerState} (h : Inv st) (r : String) :
    (sioOf st r).Nodup := by
  unfold sioOf
  cases hf : findRoom st.sio r with
  | none => exact List.nodup_nil
  | some us => exact h.snodup _ (findRoom_mem hf)

theorem Inv.memOf_nodup {st : ServerState} (h : Inv st) (r : String) :
    (memOf st r).Nodup := by
  unfold memOf
  cases hf : findRoom st.rooms r with
  | none => exact List.nodup_nil
  | some us => exact h.rnodup _ (findRoom_mem hf)

theorem Inv.memOf_conn {st : ServerState} (h : Inv st) {r x : String}
    (hx : x ∈ memOf st r) : x ∈ st.connected := by
  unfold memOf at hx
  cases hf : findRoom st.rooms r with
  | none =>
      rw [hf] at hx
      cases hx
  | some us =>
      rw [hf] at hx
      exact h.rconn _ (findRoom_mem hf) x hx

theorem Inv.mem_sioOf_of_memOf {st : ServerState} (h : Inv st) {r x : String}
    (hx : x ∈ memOf st r) : x ∈ sioOf st r :=
  (h.schar r x).mpr (Or.inl hx)

theorem inv_step {st : ServerState} {e : Event} (h : Inv st)
    (hwf : wfEvent st e = true) : Inv (step st e).1 := by
  cases e with
  | connect s =>
      refine ⟨h.rkeys, h.rnodup, ?_, h.rne, ?_, ?_⟩
      · intro e he x hx
        exact List.mem_cons_of_mem _ (h.rconn e he x hx)
      · intro e he
        rcases mem_addTo he with rfl | ⟨e0, he0, rfl | rfl⟩
        · exact List.nodup_singleton _
        · exact h.snodup e he0
        · exact addUser_nodup (h.snodup e0 he0)
      · intro r x
        show x ∈ (findRoom (addTo st.sio s s) r).getD [] ↔
          (x ∈ memOf st r ∨ (x = r ∧ r ∈ s :: st.connected))
        have hold := h.schar r x
        by_cases hr : r = s
        · subst hr
          rw [getD_findRoom_addTo_self, mem_addUser]
          constructor
          · rintro (hx | rfl)
            · rcases hold.mp hx with hm | ⟨rfl, hc⟩
              · exact Or.inl hm
              · exact Or.inr ⟨rfl, List.mem_cons_self _ _⟩
            · exact Or.inr ⟨rfl, List.mem_cons_self _ _⟩
          · rintro (hm | ⟨rfl, -⟩)
            · exact Or.inl (hold.mpr (Or.inl hm))
            · exact Or.inr rfl
        · rw [getD_findRoom_addTo_other hr]
          constructor
          · intro hx
            rcases hold.mp hx with hm | ⟨rfl, hc⟩
            · exact Or.inl hm
            · exact Or.inr ⟨rfl, List.mem_cons_of_mem _ hc⟩
          · rintro (hm | ⟨rfl, hc⟩)
            · exact hold.mpr (Or.inl hm)
            · rcases List.mem_cons.mp hc with h1 | h1
              · exact absurd h1 hr
              · exact hold.mpr (Or.inr ⟨rfl, h1⟩)
  | joinRoom s r0 =>
      have hs : s ∈ st.connected := by simpa [wfEvent] using hwf
      refine ⟨keys_addTo_nodup h.rkeys, ?_, ?_, ?_, ?_, ?_⟩
      · intro e he
        rcases mem_addTo he with rfl | ⟨e0, he0, rfl | rfl⟩
        · exact List.nodup_singleton _
        · exact h.rnodup e he0
        · exact addUser_nodup (h.rnodup e0 he0)
      · intro e he x hx
        rcases mem_addTo he with rfl | ⟨e0, he0, rfl | rfl⟩
        · rcases List.mem_singleton.mp hx with rfl
          exact hs
        · exact h.rconn e he0 x hx
        · rcases mem_addUser.mp hx with hx0 | rfl
          · exact h.rconn e0 he0 x hx0
          · exact hs
      · intro e he
        rcases mem_addTo he with rfl | ⟨e0, he0, rfl | rfl⟩
        · simp
        · exact h.rne e he0
        · exact addUser_ne_nil
      · intro e he
        rcases mem_addTo he with rfl | ⟨e0, he0, rfl | rfl⟩
        · exact List.nodup_singleton _
        · exact h.snodup e he0
        · exact addUser_nodup (h.snodup e0 he0)
      · intro r x
        show x ∈ (findRoom (addTo st.sio r0 s) r).getD [] ↔
          (x ∈ (findRoom (addTo st.rooms r0 s) r).getD [] ∨
            (x = r ∧ r ∈ st.connected))
        have hold := h.schar r x
        by_cases hr : r = r0
        · subst hr
          rw [getD_findRoom_addTo_self, getD_findRoom_addTo_self,
            mem_addUser, mem_addUser]
          constructor
          · rintro (hx | rfl)
            · rcases hold.mp hx with hm | hc
              · exact Or.inl (Or.inl hm)
              · exact Or.inr hc
            · exact Or.inl (Or.inr rfl)
          · rintro ((hm | rfl) | hc)
            · exact Or.inl (hold.mpr (Or.inl hm))
            · exact Or.inr rfl
            · exact Or.inl (hold.mpr (Or.inr hc))
        · rw [getD_findRoom_addTo_other hr, getD_findRoom_addTo_other hr]
          exact hold
  | signal s d p => exact h
  | layerUpdate s r0 ls => exact h
  | backgroundUpdate s r0 bg => exact h
  | captureTrigger s r0 now => exact h
  | disconnect s =>
      refine ⟨?_, ?_, ?_, ?_, ?_, ?_⟩
      · exact List.Nodup.sublist (keys_disconnectMap_sublist _ _) h.rkeys
      · intro e he
        rcases mem_disconnectMap he with ⟨e0, he0, hfst, hca | hca⟩
        · rw [hca.1]
          exact (h.rnodup e0 he0).filter _
        · rw [hca.2]
          exact h.rnodup e0 he0
      · intro e he x hx
        rcases mem_disconnectMap he with ⟨e0, he0, hfst, hca | hca⟩
        · rw [hca.1] at hx
          rcases mem_filter_ne.mp hx with ⟨hx0, hxs⟩
          exact mem_filter_ne.mpr ⟨h.rconn e0 he0 x hx0, hxs⟩
        · rw [hca.2] at hx
          have hxs : x ≠ s := fun hc => hca.1 (hc ▸ hx)
          exact mem_filter_ne.mpr ⟨h.rconn e0 he0 x hx, hxs⟩
      · intro e he
        rcases mem_disconnectMap he with ⟨e0, he0, hfst, hca | hca⟩
        · exact hca.2
        · rw [hca.2]
          exact h.rne e0 he0
      · intro e he
        rcases mem_sioRemove he with ⟨e0, he0, rfl⟩
        exact (h.snodup e0 he0).filter _
      · intro r x
        show x ∈ (findRoom (sioRemove st.sio s) r).getD [] ↔
          (x ∈ (findRoom (disconnectMap st.rooms s) r).getD [] ∨
            (x = r ∧ r ∈ st.connected.filter (fun y => y ≠ s)))
        rw [getD_findRoom_sioRemove, getD_findRoom_disconnectMap h.rkeys,
          mem_filter_ne, mem_filter_ne]
        have hold := h.schar r x
        constructor
        · rintro ⟨hx, hxs⟩
          rcases hold.mp hx with hm | ⟨rfl, hc⟩
          · exact Or.inl ⟨hm, hxs⟩
          · exact Or.inr ⟨rfl, mem_filter_ne.mpr ⟨hc, hxs⟩⟩
        · rintro (⟨hm, hxs⟩ | ⟨rfl, hc⟩)
          · exact ⟨hold.mpr (Or.inl hm), hxs⟩
          · rcases mem_filter_ne.mp hc with ⟨hc1, hc2⟩
            exact ⟨hold.mpr (Or.inr ⟨rfl, hc1⟩), hc2⟩

theorem reachable_inv {st : ServerState} (h : Reachable st) : Inv st := by
  induction h with
  | init => refine ⟨?_, ?_, ?_, ?_, ?_, ?_⟩ <;> simp [init, sioOf, memOf, findRoom]
  | step h1 h2 ih => exact inv_step ih h2

/-! ### Derived notions used by the claims -/

/-- The rooms of the directory that list `x` as a member. -/
def roomsOf (st : ServerState) (x : String) : List String :=
  (st.rooms.filter (fun e => x ∈ e.2)).map Prod.fst

/-- How many join-room events socket `x` issued in a trace. -/
def joinCount (tr : List Event) (x : String) : Nat :=
  (tr.filter (fun e => match e with
    | .joinRoom s _ => s = x
    | _ => false)).length

/-- The layer lists delivered to `m` in a message sequence, in order. -/
def layerMsgsTo (msgs : List Msg) (m : String) : List (List String) :=
  msgs.filterMap (fun msg =>
    match msg with
    | ⟨d, .layerUpdate ls⟩ => if d = m then some ls else none
    | _ => none)

/-- The last layer list delivered to `m`, i.e. the layer state `m`
holds after replaying a message sequence. -/
def lastLayerTo (msgs : List Msg) (m : String) : Option (List String) :=
  (layerMsgsTo msgs m).getLast?

theorem addUser_nil (x : String) : addUser [] x = [x] := by
  simp [addUser]

theorem map_payload_emitTo (l : List String) (p : Payload) :
    (emitTo l p).map Msg.payload = List.replicate l.length p := by
  induction l with
  | nil => rfl
  | cons d l ih =>
      show Msg.payload ⟨d, p⟩ :: (emitTo l p).map Msg.payload = _
      rw [ih]
      rfl

theorem layerMsgsTo_append (xs ys : List Msg) (m : String) :
    layerMsgsTo (xs ++ ys) m = layerMsgsTo xs m ++ layerMsgsTo ys m := by
  unfold layerMsgsTo
  rw [List.filterMap_append]

theorem mem_layerMsgsTo {msgs : List Msg} {m : String} {x : List String} :
    x ∈ layerMsgsTo msgs m ↔ (Msg.mk m (Payload.layerUpdate x)) ∈ msgs := by
  unfold layerMsgsTo
  rw [List.mem_filterMap]
  constructor
  · rintro ⟨msg, hmsg, hf⟩
    obtain ⟨d, p⟩ := msg
    cases p with
    | layerUpdate ls =>
        have hf2 : (if d = m then some ls else none) = some x := hf
        by_cases hd : d = m
        · rw [if_pos hd] at hf2
          have hx : ls = x := Option.some.inj hf2
          rw [← hd, ← hx]
          exact hmsg
        · rw [if_neg hd] at hf2
          exact Option.noConfusion hf2
    | roomJoined a b =>
        have hf2 : (none : Option (List String)) = some x := hf
        exact Option.noConfusion hf2
    | userJoined a =>
        have hf2 : (none : Option (List String)) = some x := hf
        exact Option.noConfusion hf2
    | userLeft a =>
        have hf2 : (none : Option (List String)) = some x := hf
        exact Option.noConfusion hf2
    | signal a b =>
        have hf2 : (none : Option (List String)) = some x := hf
        exact Option.noConfusion hf2
    | captureNow t =>
        have hf2 : (none : Option (List String)) = some x := hf
        exact Option.noConfusion hf2
  · intro hm
    refine ⟨⟨m, Payload.layerUpdate x⟩, hm, ?_⟩
    show (if m = m then some x else none) = some x
    rw [if_pos rfl]

theorem joinedNotLeft_mem {l : List Event} {x r : String}
    (h : joinedNotLeft l x r) : Event.joinRoom x r ∈ l := by
  induction l with
  | nil => cases h
  | cons e l ih =>
      rcases h with rfl | ⟨-, h⟩
      · exact List.mem_cons_self _ _
      · exact List.mem_cons_of_mem _ (ih h)

theorem findRoom_eq_of_mem {m : List RoomEntry} (hk : (m.map Prod.fst).Nodup)
    {r : String} {us : List String} (h : (r, us) ∈ m) :
    findRoom m r = some us := by
  induction m with
  | nil => cases h
  | cons e m ih =>
      rw [List.map_cons] at hk
      rcases List.nodup_cons.mp hk with ⟨hkey, hrest⟩
      rcases List.mem_cons.mp h with rfl | h'
      · exact if_pos rfl
      · by_cases hek : e.1 = r
        · exfalso
          apply hkey
          rw [hek]
          exact List.mem_map.mpr ⟨(r, us), h', rfl⟩
        · show (if e.1 = r then some e.2 else findRoom m r) = some us
          rw [if_neg hek]
          exact ih hrest h'

theorem roomsOf_nodup {st : ServerState}
    (hk : (st.rooms.map Prod.fst).Nodup) (x : String) :
    (roomsOf st x).Nodup :=
  List.Nodup.sublist ((List.filter_sublist _).map Prod.fst) hk

theorem mem_memOf_of_mem_roomsOf {st : ServerState}
    (hk : (st.rooms.map Prod.fst).Nodup) {x r : String}
    (h : r ∈ roomsOf st x) : x ∈ memOf st r := by
  unfold roomsOf at h
  rcases List.mem_map.mp h with ⟨e, he, rfl⟩
  rcases List.mem_filter.mp he with ⟨hmem, hx⟩
  have hx2 : x ∈ e.2 := by simpa using hx
  have hfind : findRoom st.rooms e.1 = some e.2 := by
    refine findRoom_eq_of_mem hk ?_
    show (e.1, e.2) ∈ st.rooms
    rw [Prod.mk.eta]
    exact hmem
  unfold memOf
  rw [hfind]
  exact hx2

theorem two_mem_le_length {α : Type} [DecidableEq α] {l : List α} {a b : α}
    (ha : a ∈ l) (hb : b ∈ l) (hab : a ≠ b) : 2 ≤ l.length := by
  have h1 : ({a, b} : Finset α) ⊆ l.toFinset := by
    intro y hy
    rcases Finset.mem_insert.mp hy with rfl | hy
    · exact List.mem_toFinset.mpr ha
    · rw [Finset.mem_singleton] at hy
      rw [hy]
      exact List.mem_toFinset.mpr hb
  calc 2 = ({a, b} : Finset α).card := (Finset.card_pair hab).symm
    _ ≤ l.toFinset.card := Finset.card_le_card h1
    _ ≤ l.length := l.toFinset_card_le

theorem join_event_of_memOf {tr : List Event} {x r : String}
    (h : x ∈ memOf (run init tr) r) : Event.joinRoom x r ∈ tr := by
  rw [memOf_run tr (by simp [init]) r] at h
  have h2 : x ∈ specMembers tr r := h
  have h3 := (mem_specMembers_iff tr x r).mp h2
  exact List.mem_reverse.mp (joinedNotLeft_mem h3)

/-! ### Concrete reachable states used by witnesses and counterexamples -/

/-- Three sockets connect; a and b join room1; c stays roomless. -/
def trW : List Event :=
  [.connect "a", .connect "b", .connect "c",
   .joinRoom "a" "room1", .joinRoom "b" "room1"]

/-- The state reached by `trW`. -/
def stW : ServerState := run init trW

theorem stW_reachable : Reachable stW :=
  reachable_run trW Reachable.init (by decide)

/-- Two connected sockets, no rooms joined. -/
def stC5 : ServerState := run init [.connect "a", .connect "b"]

/-- a and b are members of room rX; c is a member of room rY only. -/
def stC7 : ServerState := run init
  [.connect "a", .connect "b", .connect "c",
   .joinRoom "a" "rX", .joinRoom "b" "rX", .joinRoom "c" "rY"]

/-- Socket a joins room1 and then also room2 without disconnecting. -/
def stC8 : ServerState := run init
  [.connect "a", .connect "b",
   .joinRoom "a" "room1", .joinRoom "b" "room1", .joinRoom "a" "room2"]

/-! ### The claims -/

/-- C1 (code bug in the server): the server registers no handler for
the background-update message the client emits, so the event neither
changes any state nor emits anything; in particular no other room
member ever receives the background descriptor, contrary to the spec's
`update_background` contract. -/
theorem background_update_not_relayed (st : ServerState) (s r bg : String) :
    step st (Event.backgroundUpdate s r bg) = (st, []) := rfl

/-- C2: after any event sequence, the member set the server holds for
a room is exactly the spec's set of identities that have joined the
room and not yet left it (leaving = disconnecting): it equals the
spec-side fold `specMembers`, and an identity is a member iff its most
recent events show a join of this room not followed by its
disconnect. -/
theorem members_eq_joined_not_left (tr : List Event) (r : String) :
    memOf (run init tr) r = specMembers tr r ∧
      ∀ x, (x ∈ memOf (run init tr) r ↔ joinedNotLeft tr.reverse x r) := by
  have h1 : memOf (run init tr) r = specMembers tr r :=
    memOf_run tr (by simp [init]) r
  refine ⟨h1, fun x => ?_⟩
  rw [h1]
  exact mem_specMembers_iff tr x r

/-- C3: in every reachable state, every room present in the directory
has a nonempty member set (a room emptied by its last member's
disconnect is deleted in the same step); moreover a join to an absent
room identifier creates it fresh, containing exactly the joiner. -/
theorem rooms_never_empty (st : ServerState) (h : Reachable st) :
    (∀ e ∈ st.rooms, e.2 ≠ []) ∧
      (∀ r s, findRoom st.rooms r = none →
        memOf (step st (Event.joinRoom s r)).1 r = [s]) := by
  refine ⟨(reachable_inv h).rne, ?_⟩
  intro r s hnone
  show (findRoom (addTo st.rooms r s) r).getD [] = [s]
  rw [getD_findRoom_addTo_self, hnone]
  exact addUser_nil s

/-- C3 witness: after a join/leave history, the surviving room has a
nonempty member set. -/
theorem rooms_never_empty_witness :
    (("room1", ["b"]) : RoomEntry).2 ≠ [] :=
  (rooms_never_empty
      (run init [.connect "a", .connect "b", .joinRoom "a" "room1",
        .joinRoom "b" "room1", .disconnect "a"])
      (reachable_run _ Reachable.init (by decide))).1
    ("room1", ["b"]) (by decide)

/-- C4: relaying a signal from a to destination b: every emitted
message is the relayed payload tagged with source a (never an error
notice); if b is connected, b receives it exactly once; if b is not
connected, b receives nothing. -/
theorem signal_relay (st : ServerState) (h : Reachable st) (a b p : String) :
    (∀ m ∈ (step st (Event.signal a b p)).2, m.payload = Payload.signal a p) ∧
      (b ∈ st.connected →
        ((step st (Event.signal a b p)).2.filter (fun m => m.dst = b)) =
          [⟨b, Payload.signal a p⟩]) ∧
      (b ∉ st.connected →
        ((step st (Event.signal a b p)).2.filter (fun m => m.dst = b)) = []) := by
  have hinv := reachable_inv h
  refine ⟨?_, ?_, ?_⟩
  · intro m hm
    exact (mem_emitTo.mp hm).2
  · intro hb
    show ((emitTo (sioOf st b) (Payload.signal a p)).filter
      (fun m => m.dst = b)) = _
    rw [filter_emitTo]
    have hbmem : b ∈ sioOf st b := (hinv.schar b b).mpr (Or.inr ⟨rfl, hb⟩)
    rw [filter_eq_singleton_of_nodup (hinv.sioOf_nodup b) hbmem]
    rfl
  · intro hb
    show ((emitTo (sioOf st b) (Payload.signal a p)).filter
      (fun m => m.dst = b)) = _
    rw [filter_emitTo]
    have hnil : (sioOf st b).filter (fun x => x = b) = [] := by
      refine List.filter_eq_nil_iff.mpr ?_
      intro x hx
      simp only [decide_eq_true_eq]
      intro heq
      rw [heq] at hx
      rcases (hinv.schar b b).mp hx with hm | ⟨-, hc⟩
      · exact hb (hinv.memOf_conn hm)
      · exact hb hc
    rw [hnil]
    rfl

/-- C4 witness: in a concrete room, a's signal to b is delivered to b
exactly once with source a and the payload verbatim. -/
theorem signal_relay_witness :
    ((step stW (Event.signal "a" "b" "offer")).2.filter
      (fun m => m.dst = "b")) = [⟨"b", Payload.signal "a" "offer"⟩] :=
  (signal_relay stW stW_reachable "a" "b" "offer").2.1 (by decide)

/-- C5 counterexample: with sockets a and b connected and room "a"
having no members at all, b's capture-trigger naming room "a" emits a
capture-now to socket a (io.to targets the adapter room "a", which is
a's personal room), i.e. to an identity outside the room's member
set. -/
theorem capture_outside_room_cex :
    Reachable stC5 ∧ memOf stC5 "a" = [] ∧
      (step stC5 (Event.captureTrigger "b" "a" 7)).2 =
        [⟨"a", Payload.captureNow 7⟩] :=
  ⟨reachable_run _ Reachable.init (by decide), by decide, by decide⟩

/-- C5 amended: a capture-trigger naming room r delivers exactly one
capture-now notice, stamped with the trigger's timestamp, to every
member of r at the instant of triggering; every recipient is either a
member of r or the single connection whose socket id equals the room
identifier r (the only possible leak outside the room). -/
theorem capture_fanout (st : ServerState) (h : Reachable st)
    (s r : String) (now : Nat) :
    (∀ m ∈ memOf st r,
      ((step st (Event.captureTrigger s r now)).2.filter
        (fun msg => msg.dst = m)) = [⟨m, Payload.captureNow now⟩]) ∧
      (∀ msg ∈ (step st (Event.captureTrigger s r now)).2,
        msg.payload = Payload.captureNow now ∧
          (msg.dst ∈ memOf st r ∨ msg.dst = r)) := by
  have hinv := reachable_inv h
  constructor
  · intro m hm
    show ((emitTo (sioOf st r) (Payload.captureNow now)).filter
      (fun msg => msg.dst = m)) = _
    rw [filter_emitTo,
      filter_eq_singleton_of_nodup (hinv.sioOf_nodup r)
        (hinv.mem_sioOf_of_memOf hm)]
    rfl
  · intro msg hmsg
    rcases mem_emitTo.mp hmsg with ⟨hd, hp⟩
    refine ⟨hp, ?_⟩
    rcases (hinv.schar r msg.dst).mp hd with hm | ⟨hc, -⟩
    · exact Or.inl hm
    · exact Or.inr hc

/-- C5 amended witness: member b of room1 receives exactly one
capture-now notice from a concrete trigger. -/
theorem capture_fanout_witness :
    ((step stW (Event.captureTrigger "a" "room1" 42)).2.filter
      (fun msg => msg.dst = "b")) = [⟨"b", Payload.captureNow 42⟩] :=
  (capture_fanout stW stW_reachable "a" "room1" 42).1 "b" (by decide)

/-- C6: a layer-update from s1 naming room r delivers the full
replacement layer list exactly once to every member of r other than
the sender, the sender receives nothing, and after two sequential
layer-updates from different senders every member other than the later
sender ends up holding exactly the later sender's full list (no
merging). -/
theorem layer_update_wholesale (st : ServerState) (h : Reachable st)
    (s1 s2 r : String) (l1 l2 : List String) (_hss : s1 ≠ s2) :
    (∀ m ∈ memOf st r, m ≠ s1 →
      ((step st (Event.layerUpdate s1 r l1)).2.filter
        (fun msg => msg.dst = m)) = [⟨m, Payload.layerUpdate l1⟩]) ∧
      ((step st (Event.layerUpdate s1 r l1)).2.filter
        (fun msg => msg.dst = s1) = []) ∧
      (∀ m ∈ memOf st r, m ≠ s2 →
        lastLayerTo (traceMsgs st
          [Event.layerUpdate s1 r l1, Event.layerUpdate s2 r l2]) m =
          some l2) := by
  have hinv := reachable_inv h
  refine ⟨?_, ?_, ?_⟩
  · intro m hm hms1
    show ((emitTo ((sioOf st r).filter (fun x => x ≠ s1))
      (Payload.layerUpdate l1)).filter (fun msg => msg.dst = m)) = _
    rw [filter_emitTo]
    have hmem : m ∈ (sioOf st r).filter (fun x => x ≠ s1) :=
      mem_filter_ne.mpr ⟨hinv.mem_sioOf_of_memOf hm, hms1⟩
    rw [filter_eq_singleton_of_nodup ((hinv.sioOf_nodup r).filter _) hmem]
    rfl
  · show ((emitTo ((sioOf st r).filter (fun x => x ≠ s1))
      (Payload.layerUpdate l1)).filter (fun msg => msg.dst = s1)) = _
    rw [filter_emitTo]
    have hnil : ((sioOf st r).filter (fun x => x ≠ s1)).filter
        (fun x => x = s1) = [] := by
      refine List.filter_eq_nil_iff.mpr ?_
      intro x hx
      simp only [decide_eq_true_eq]
      exact (mem_filter_ne.mp hx).2
    rw [hnil]
    rfl
  · intro m hm hms2
    have hm2 : m ∈ (sioOf st r).filter (fun x => x ≠ s2) :=
      mem_filter_ne.mpr ⟨hinv.mem_sioOf_of_memOf hm, hms2⟩
    have hBne : layerMsgsTo (emitTo ((sioOf st r).filter (fun x => x ≠ s2))
        (Payload.layerUpdate l2)) m ≠ [] := by
      intro hc
      have hl2 : l2 ∈ layerMsgsTo (emitTo ((sioOf st r).filter
          (fun x => x ≠ s2)) (Payload.layerUpdate l2)) m :=
        mem_layerMsgsTo.mpr (mem_emitTo.mpr ⟨hm2, rfl⟩)
      rw [hc] at hl2
      exact List.not_mem_nil _ hl2
    show (layerMsgsTo
      (emitTo ((sioOf st r).filter (fun x => x ≠ s1)) (Payload.layerUpdate l1) ++
        (emitTo ((sioOf st r).filter (fun x => x ≠ s2)) (Payload.layerUpdate l2) ++ []))
      m).getLast? = some l2
    rw [List.append_nil, layerMsgsTo_append,
      List.getLast?_append_of_ne_nil _ hBne,
      List.getLast?_eq_getLast_of_ne_nil hBne]
    have hmem := List.getLast_mem hBne
    have hmsg := mem_layerMsgsTo.mp hmem
    have hp : Payload.layerUpdate
        ((layerMsgsTo (emitTo ((sioOf st r).filter (fun x => x ≠ s2))
          (Payload.layerUpdate l2)) m).getLast hBne) =
        Payload.layerUpdate l2 := (mem_emitTo.mp hmsg).2
    injection hp with hlu
    rw [hlu]

/-- C6 witness: with room1 = a, b, after a's 2-layer update and b's
1-layer update, a's final received layer list is b's full list. -/
theorem layer_update_wholesale_witness :
    lastLayerTo (traceMsgs stW
      [Event.layerUpdate "a" "room1" ["x1", "x2"],
       Event.layerUpdate "b" "room1" ["y1"]]) "a" = some ["y1"] :=
  (layer_update_wholesale stW stW_reachable "a" "b" "room1"
    ["x1", "x2"] ["y1"] (by decide)).2.2 "a" (by decide) (by decide)

/-- C7 counterexample: socket c, whose only room is rY, issues a
layer-update naming room rX; the update is delivered to a, a member of
rX but not of c's own room rY, so the fan-out is not confined to the
issuing connection's room. -/
theorem fanout_outside_own_room_cex :
    Reachable stC7 ∧ roomsOf stC7 "c" = ["rY"] ∧
      (⟨"a", Payload.layerUpdate ["L"]⟩ : Msg) ∈
        (step stC7 (Event.layerUpdate "c" "rX" ["L"])).2 ∧
      "a" ∉ memOf stC7 "rY" :=
  ⟨reachable_run _ Reachable.init (by decide), by decide, by decide, by decide⟩

/-- C7 amended: recipients of a layer-update or capture-trigger are
determined by the room identifier carried in the event, not by the
issuing connection's own room: every recipient is a member of the
named room (and not the sender, for layer-update) or the single
connection whose socket id equals that room identifier. -/
theorem fanout_within_named_room (st : ServerState) (h : Reachable st)
    (s r : String) (ls : List String) (now : Nat) :
    (∀ msg ∈ (step st (Event.layerUpdate s r ls)).2,
      (msg.dst ∈ memOf st r ∨ msg.dst = r) ∧ msg.dst ≠ s) ∧
      (∀ msg ∈ (step st (Event.captureTrigger s r now)).2,
        msg.dst ∈ memOf st r ∨ msg.dst = r) := by
  have hinv := reachable_inv h
  constructor
  · intro msg hmsg
    rcases mem_emitTo.mp hmsg with ⟨hd, -⟩
    rcases mem_filter_ne.mp hd with ⟨hd1, hd2⟩
    refine ⟨?_, hd2⟩
    rcases (hinv.schar r msg.dst).mp hd1 with hm | ⟨hc, -⟩
    · exact Or.inl hm
    · exact Or.inr hc
  · intro msg hmsg
    rcases mem_emitTo.mp hmsg with ⟨hd, -⟩
    rcases (hinv.schar r msg.dst).mp hd with hm | ⟨hc, -⟩
    · exact Or.inl hm
    · exact Or.inr hc

/-- C7 amended witness: the one recipient of a concrete layer-update
is a member of the named room and differs from the sender. -/
theorem fanout_within_named_room_witness :
    ((⟨"b", Payload.layerUpdate ["z"]⟩ : Msg).dst ∈ memOf stW "room1" ∨
      (⟨"b", Payload.layerUpdate ["z"]⟩ : Msg).dst = "room1") ∧
      (⟨"b", Payload.layerUpdate ["z"]⟩ : Msg).dst ≠ "a" :=
  (fanout_within_named_room stW stW_reachable "a" "room1" ["z"] 0).1
    ⟨"b", Payload.layerUpdate ["z"]⟩ (by decide)

/-- C8 counterexample: a socket that joins room1 and then room2
without disconnecting is a member of both rooms at once, so a
connection's current room is not unique. -/
theorem member_of_two_rooms_cex :
    Reachable stC8 ∧ roomsOf stC8 "a" = ["room1", "room2"] :=
  ⟨reachable_run _ Reachable.init (by decide), by decide⟩

/-- C8 amended: a connection is a member of one room per distinct room
it has joined; in particular a connection that has issued at most one
join-room since the start is a member of at most one room. -/
theorem single_join_single_room (tr : List Event) (x : String)
    (h : joinCount tr x ≤ 1) :
    (roomsOf (run init tr) x).length ≤ 1 := by
  by_contra hc
  have hk : ((run init tr).rooms.map Prod.fst).Nodup :=
    rooms_keys_nodup_run tr (by simp [init])
  have hnd : (roomsOf (run init tr) x).Nodup := roomsOf_nodup hk x
  rcases hro : roomsOf (run init tr) x with _ | ⟨r1, rl⟩
  · rw [hro] at hc
    simp at hc
  rcases rl with _ | ⟨r2, rl2⟩
  · rw [hro] at hc
    simp at hc
  rw [hro] at hnd
  have hr12 : r1 ≠ r2 := by
    rcases List.nodup_cons.mp hnd with ⟨h1, -⟩
    exact fun hcc => h1 (hcc ▸ List.mem_cons_self _ _)
  have hm1 : r1 ∈ roomsOf (run init tr) x := by
    rw [hro]
    exact List.mem_cons_self _ _
  have hm2 : r2 ∈ roomsOf (run init tr) x := by
    rw [hro]
    exact List.mem_cons_of_mem _ (List.mem_cons_self _ _)
  have hj1 : Event.joinRoom x r1 ∈ tr :=
    join_event_of_memOf (mem_memOf_of_mem_roomsOf hk hm1)
  have hj2 : Event.joinRoom x r2 ∈ tr :=
    join_event_of_memOf (mem_memOf_of_mem_roomsOf hk hm2)
  have hf1 : Event.joinRoom x r1 ∈ tr.filter (fun e => match e with
      | .joinRoom s _ => s = x
      | _ => false) :=
    List.mem_filter.mpr ⟨hj1, by simp⟩
  have hf2 : Event.joinRoom x r2 ∈ tr.filter (fun e => match e with
      | .joinRoom s _ => s = x
      | _ => false) :=
    List.mem_filter.mpr ⟨hj2, by simp⟩
  have hne : Event.joinRoom x r1 ≠ Event.joinRoom x r2 := by
    intro hcc
    injection hcc with h1 h2
    exact hr12 h2
  have h2le := two_mem_le_length hf1 hf2 hne
  have : 2 ≤ joinCount tr x := h2le
  omega

/-- C8 amended witness: one join yields membership of at most one
room. -/
theorem single_join_single_room_witness :
    (roomsOf (run init [Event.connect "a", Event.joinRoom "a" "room1"])
      "a").length ≤ 1 :=
  single_join_single_room _ "a" (by decide)

/-- C9: a join-room from a socket that is already a member leaves the
room's member set unchanged, yet still delivers a user-joined notice
exactly once to every other member of the room. -/
theorem rejoin_idempotent (st : ServerState) (h : Reachable st)
    (s r : String) (hs : s ∈ memOf st r) :
    memOf (step st (Event.joinRoom s r)).1 r = memOf st r ∧
      ∀ m ∈ memOf st r, m ≠ s →
        ((step st (Event.joinRoom s r)).2.filter (fun msg => msg.dst = m)) =
          [⟨m, Payload.userJoined s⟩] := by
  have hinv := reachable_inv h
  constructor
  · show (findRoom (addTo st.rooms r s) r).getD [] = _
    rw [getD_findRoom_addTo_self]
    exact addUser_of_mem hs
  · intro m hm hms
    show ((⟨s, Payload.roomJoined r s⟩ ::
      emitTo (((findRoom (addTo st.sio r s) r).getD []).filter
        (fun x => x ≠ s)) (Payload.userJoined s)).filter
          (fun msg => msg.dst = m)) = _
    have hhead : (decide ((Msg.mk s (Payload.roomJoined r s)).dst = m)) = false := by
      simp only [decide_eq_false_iff_not]
      exact fun hcc => hms hcc.symm
    rw [List.filter_cons, hhead, if_neg Bool.false_ne_true, filter_emitTo]
    have hsio : m ∈ ((findRoom (addTo st.sio r s) r).getD []).filter
        (fun x => x ≠ s) := by
      rw [getD_findRoom_addTo_self]
      exact mem_filter_ne.mpr
        ⟨mem_addUser.mpr (Or.inl (hinv.mem_sioOf_of_memOf hm)), hms⟩
    have hnd : (((findRoom (addTo st.sio r s) r).getD []).filter
        (fun x => x ≠ s)).Nodup := by
      rw [getD_findRoom_addTo_self]
      exact (addUser_nodup (hinv.sioOf_nodup r)).filter _
    rw [filter_eq_singleton_of_nodup hnd hsio]
    rfl

/-- C9 witness: a's rejoin of room1 leaves the member set unchanged
and still notifies b once. -/
theorem rejoin_idempotent_witness :
    memOf (step stW (Event.joinRoom "a" "room1")).1 "room1" =
      memOf stW "room1" :=
  (rejoin_idempotent stW stW_reachable "a" "room1" (by decide)).1

/-- C10: the timestamp of a capture broadcast is sampled once per
trigger: the payloads of the messages emitted by one capture-trigger
are all equal to capture-now with that timestamp (one per recipient),
so every recipient receives the identical timestamp value. -/
theorem capture_timestamp_uniform (st : ServerState) (s r : String)
    (now : Nat) :
    ((step st (Event.captureTrigger s r now)).2.map Msg.payload) =
      List.replicate (sioOf st r).length (Payload.captureNow now) :=
  map_payload_emitTo (sioOf st r) (Payload.captureNow now)

end SoulSnap
